import Mathlib

/-!
Verification of the time-audit reconciliation core.

The definitions below are a shallow embedding of the TypeScript source:
the name normalizer and fuzzy matcher, the break/timecard comparison
classifier, the gap detector, the report generator, and the timecard CSV
row handling.  JavaScript strings are modelled as Lean `String`
(character lists), JS `Date` values as `Int` milliseconds since the
epoch, JS `number` as `Int` where the source only ever holds integral
minute counts and as `Rat` for the hours field, and `null`/`undefined`
as `Option`.  External library calls (fuzzball similarity scoring,
date-fns text parsing, papaparse tabular parsing) are taken as
parameters of the embedding; a concrete executable stand-in for the
fuzzball scorer is provided for evaluation.
-/

/-! ### Character-level primitives (JS string operations) -/

/-- Model of the whitespace class used by `String.prototype.trim` and the
regex `\s` on the inputs at hand. -/
def jsIsSpace (c : Char) : Bool :=
  c == ' ' || c == '\t' || c == '\n' || c == '\r'

/-- Model of the regex class `\w`: ASCII alphanumerics and underscore. -/
def isWordChar (c : Char) : Bool :=
  c.isAlphanum || c == '_'

/-- Model of `String.prototype.toLowerCase` restricted to ASCII, which is
all that survives the `\w` filter of the normalizer anyway. -/
def jsToLower : Char → Char
  | 'A' => 'a' | 'B' => 'b' | 'C' => 'c' | 'D' => 'd' | 'E' => 'e'
  | 'F' => 'f' | 'G' => 'g' | 'H' => 'h' | 'I' => 'i' | 'J' => 'j'
  | 'K' => 'k' | 'L' => 'l' | 'M' => 'm' | 'N' => 'n' | 'O' => 'o'
  | 'P' => 'p' | 'Q' => 'q' | 'R' => 'r' | 'S' => 's' | 'T' => 't'
  | 'U' => 'u' | 'V' => 'v' | 'W' => 'w' | 'X' => 'x' | 'Y' => 'y'
  | 'Z' => 'z'
  | c => c

/-- `String.prototype.trim` on a character list: drop whitespace from
both ends. -/
def trimChars (cs : List Char) : List Char :=
  ((cs.dropWhile jsIsSpace).reverse.dropWhile jsIsSpace).reverse

/-- `split(/\s+/)` fused with the subsequent `filter (length > 0)` of the
normalizer: cut at whitespace runs, dropping empty pieces.  The
accumulator holds the current token reversed. -/
def splitWsAux (cur : List Char) : List Char → List (List Char)
  | [] => if cur.isEmpty then [] else [cur.reverse]
  | c :: cs =>
    if jsIsSpace c then
      if cur.isEmpty then splitWsAux [] cs else cur.reverse :: splitWsAux [] cs
    else
      splitWsAux (c :: cur) cs

def splitWs (cs : List Char) : List (List Char) := splitWsAux [] cs

/-- `split(",")`: cut at every comma, keeping empty pieces (JS keeps
them; they are trimmed and whitespace-split downstream). -/
def splitComma : List Char → List (List Char)
  | [] => [[]]
  | c :: cs =>
    if c = ',' then [] :: splitComma cs
    else
      match splitComma cs with
      | [] => [[c]]
      | p :: ps => (c :: p) :: ps

/-- Lexicographic comparison of character lists, the order used by the
default JS `Array.prototype.sort` on strings. -/
def charListLe : List Char → List Char → Bool
  | [], _ => true
  | _ :: _, [] => false
  | a :: as, b :: bs =>
    if a < b then true
    else if b < a then false
    else charListLe as bs

/-- Insertion step of the sorting model (JS `sort` produces the unique
`le`-sorted permutation for a total order whose ties are equalities). -/
def insertBy (le : α → α → Bool) (x : α) : List α → List α
  | [] => [x]
  | y :: ys => if le x y then x :: y :: ys else y :: insertBy le x ys

def sortBy (le : α → α → Bool) : List α → List α
  | [] => []
  | x :: xs => insertBy le x (sortBy le xs)

/-- `join(" ")` on token lists. -/
def joinSpace : List (List Char) → List Char
  | [] => []
  | [t] => t
  | t :: ts => t ++ ' ' :: joinSpace ts

/-! ### Name normalizer (`normalizeEmployeeName`) -/

/-- Per-token cleaning: `token.toLowerCase().replace(/[^\w]/g, "")`. -/
def cleanToken (t : List Char) : List Char :=
  (t.map jsToLower).filter isWordChar

/-- `name.trim().replace(/"/g, "")`. -/
def cleanedOf (name : String) : List Char :=
  (trimChars name.data).filter (fun c => c != '"')

/-- Comma handling of the normalizer: split on commas, trim each part;
if a comma was present, explode every part on whitespace, otherwise
split the whole cleaned string on whitespace. -/
def rawTokens (cleaned : List Char) : List (List Char) :=
  let parts := (splitComma cleaned).map trimChars
  if parts.length > 1 then parts.flatMap splitWs else splitWs cleaned

/-- The normalizer's token list after per-token cleaning (before the
alphabetical sort). -/
def normTokens (name : String) : List (List Char) :=
  (rawTokens (cleanedOf name)).map cleanToken

/-- `normalizeEmployeeName`: lowercase, tokenized, alphabetically sorted,
joined with single spaces; empty input maps to the empty string. -/
def normalizeEmployeeName (name : String) : String :=
  if name = "" then ""
  else String.mk (joinSpace (sortBy charListLe (normTokens name)))

/-! ### Executable stand-in for the external fuzzball scorer

`matchEmployeeByName` calls `fuzzball.token_sort_ratio`, an external
dependency.  The matcher theorems below quantify over an arbitrary
scorer; `tokenSortRatio` is a concrete executable model of the library
function (sort the whitespace tokens of each side, rejoin, then score by
an indel-style ratio over the longest common subsequence), used to
instantiate witnesses and counterexamples. -/

/-- Longest-common-subsequence length, with explicit fuel so that the
definition is structurally recursive (the fuel is always sufficient). -/
def lcsFuel : Nat → List Char → List Char → Nat
  | 0, _, _ => 0
  | _ + 1, [], _ => 0
  | _ + 1, _, [] => 0
  | f + 1, a :: as, b :: bs =>
    if a = b then lcsFuel f as bs + 1
    else max (lcsFuel f (a :: as) bs) (lcsFuel f as (b :: bs))

def lcsLen (xs ys : List Char) : Nat := lcsFuel (xs.length + ys.length) xs ys

/-- Similarity ratio 0–100 of two strings (model of the library's
Levenshtein ratio with substitutions counted at cost two, which equals
an LCS ratio). -/
def simpleRatio (a b : String) : Nat :=
  let la := a.data.length
  let lb := b.data.length
  if la + lb = 0 then 100 else 200 * lcsLen a.data b.data / (la + lb)

/-- Tokenize on whitespace, sort, rejoin — the `token_sort` preparation. -/
def sortJoinTokens (s : String) : String :=
  String.mk (joinSpace (sortBy charListLe (splitWs s.data)))

/-- Model of `fuzzball.token_sort_ratio`. -/
def tokenSortRatio (a b : String) : Nat :=
  simpleRatio (sortJoinTokens a) (sortJoinTokens b)

/-! ### Fuzzy matcher (`matchEmployeeByName`) -/

/-- Result of fuzzy name matching (`match` is a reserved word in Lean, so
the field is called `matchName`). -/
structure NameMatchResult where
  matchName : Option String
  score : Nat
deriving DecidableEq, Repr

/-- The matcher's loop: running best match and best score, updated when a
pool entry scores strictly above the best seen so far. -/
def matchLoop (sc : String → Nat) : List String → Option String × Nat → Option String × Nat
  | [], acc => acc
  | n :: ns, acc =>
    matchLoop sc ns (if sc n > acc.2 then (some n, sc n) else acc)

/-- `matchEmployeeByName` with the external scorer `score` as a
parameter: normalize the candidate and each pool entry, keep the best
strictly-increasing score, and return the match only when the best score
reaches `threshold` (source default 80). -/
def matchEmployeeByName (score : String → String → Nat) (timecardName : String)
    (breakSheetNames : List String) (threshold : Nat) : NameMatchResult :=
  let normalized := normalizeEmployeeName timecardName
  let best := matchLoop (fun n => score normalized (normalizeEmployeeName n)) breakSheetNames (none, 0)
  if best.2 ≥ threshold then ⟨best.1, best.2⟩ else ⟨none, best.2⟩

/-- The maximum score any pool entry attains (0 for an empty pool); the
specification value the matcher's loop computes. -/
def maxScoreList (sc : String → Nat) (ns : List String) : Nat :=
  ns.foldr (fun n m => max (sc n) m) 0

/-- The per-entry score the matcher uses for pool entry `n` against
candidate `cand`. -/
def entryScore (score : String → String → Nat) (cand n : String) : Nat :=
  score (normalizeEmployeeName cand) (normalizeEmployeeName n)

/-! ### Data model -/

/-- Closed status enumeration (`match` is a reserved word in Lean, so
that constructor is `match_`). -/
inductive DiffStatus where
  | match_ | mismatch | addition | deletion | warning
deriving DecidableEq, Repr

/-- Timecard parsed row.  `Date` values are `Int` milliseconds. -/
structure TimecardEntry where
  payrollName : String
  fileNumber : String
  payDate : String
  timeIn : Option Int
  timeOut : Option Int
  hours : Rat
deriving DecidableEq, Repr

/-- Parsed break time range (`end` is a reserved word in Lean, so that
field is `end_`). -/
structure BreakTimeRange where
  start : Option Int
  end_ : Option Int
  actualMinutes : Option Int
deriving DecidableEq, Repr

/-- Break sheet parsed row. -/
structure BreakSheetEntry where
  driverName : String
  breakDuration : Option Int
  breakTimeRange : Option BreakTimeRange
  hasRemarks : Bool
deriving DecidableEq, Repr

/-- Detected gap in a timecard. -/
structure TimecardGap where
  employeeName : String
  fileNumber : String
  gapStart : Int
  gapEnd : Int
  gapMinutes : Int
deriving DecidableEq, Repr

/-- Comparison result for a single employee. -/
structure EmployeeComparisonResult where
  employeeName : String
  fileNumber : String
  matchedBreakSheetName : Option String
  matchScore : Nat
  timecardGap : Option TimecardGap
  totalShiftHours : Rat
  breakSheetDuration : Option Int
  breakSheetTimeRange : Option BreakTimeRange
  status : DiffStatus
  discrepancyMinutes : Option Int
  message : String
deriving DecidableEq, Repr

structure ReportSummary where
  totalEmployees : Nat
  matches_ : Nat   -- `matches` is reserved syntax in Lean
  mismatches : Nat
  missingBreakLog : Nat
  missingGap : Nat
  noBreakRequired : Nat
deriving DecidableEq, Repr

/-- Full comparison report.  The source also stamps a wall-clock
`generatedAt`; that field is omitted here (no claim refers to it and it
is not a function of the inputs). -/
structure DiscrepancyReport where
  targetDate : String
  summary : ReportSummary
  results : List EmployeeComparisonResult
deriving Repr

/-! ### Classifier (`compareBreakRecords`) -/

/-- `breakEntry.breakTimeRange?.actualMinutes ?? breakEntry.breakDuration`:
prefer the parsed actual-range duration, fall back to the declared one. -/
def loggedMinutesOf (b : BreakSheetEntry) : Option Int :=
  match b.breakTimeRange with
  | some tr =>
    match tr.actualMinutes with
    | some m => some m
    | none => b.breakDuration
  | none => b.breakDuration

structure ComparisonOutcome where
  status : DiffStatus
  discrepancyMinutes : Option Int
  message : String
deriving DecidableEq, Repr

/-- `compareBreakRecords`.  In case 3 the source computes
`loggedMinutes ? -loggedMinutes : null`, so by JS truthiness both a null
and a zero logged duration produce a null discrepancy. -/
def compareBreakRecords (gap : Option TimecardGap) (breakEntry : Option BreakSheetEntry)
    (toleranceMinutes : Int) : ComparisonOutcome :=
  match gap, breakEntry with
  | some g, some b =>
    match loggedMinutesOf b with
    | none =>
      ⟨.warning, none,
        "Gap detected (" ++ toString g.gapMinutes ++ "min) but break duration not specified in sheet"⟩
    | some logged =>
      if |g.gapMinutes - logged| ≤ toleranceMinutes then
        ⟨.match_, some 0,
          "Break properly logged (Gap: " ++ toString g.gapMinutes ++ "min, Logged: " ++ toString logged ++ "min)"⟩
      else
        ⟨.mismatch, some (g.gapMinutes - logged),
          "Duration mismatch (Gap: " ++ toString g.gapMinutes ++ "min, Logged: " ++ toString logged ++
            "min, Difference: " ++ toString |g.gapMinutes - logged| ++ "min)"⟩
  | some g, none =>
    ⟨.deletion, some g.gapMinutes,
      "Gap detected (" ++ toString g.gapMinutes ++ "min) but no break logged in sheet"⟩
  | none, some b =>
    let logged := loggedMinutesOf b
    ⟨.warning,
      (match logged with
       | some m => if m = 0 then none else some (-m)
       | none => none),
      "Break logged but no gap found in timecard"⟩
  | none, none => ⟨.match_, none, "No break required"⟩

/-! ### Gap detector (`detectTimecardGaps`) -/

/-- date-fns `differenceInMinutes`: millisecond difference divided by
60000, truncated toward zero. -/
def differenceInMinutes (a b : Int) : Int := (a - b).tdiv 60000

/-- The keys of a JS `Map` built by insertion: first-occurrence order,
without duplicates. -/
def uniqKeysAux (seen : List String) : List String → List String
  | [] => []
  | k :: ks => if k ∈ seen then uniqKeysAux seen ks else k :: uniqKeysAux (k :: seen) ks

def uniqKeys (ks : List String) : List String := uniqKeysAux [] ks

/-- The value stored under key `fn` in the grouping `Map`: the entries
with that file number, in their original order. -/
def entriesFor (entries : List TimecardEntry) (fn : String) : List TimecardEntry :=
  entries.filter (fun e => e.fileNumber == fn)

/-- Keep the entries with a clock-in, sorted ascending by clock-in
(`.filter(e => e.timeIn !== null).sort((a, b) => a.timeIn - b.timeIn)`;
JS `sort` is stable and so is this insertion model). -/
def sortByTimeIn (l : List TimecardEntry) : List TimecardEntry :=
  sortBy (fun a b => decide (a.timeIn.getD 0 ≤ b.timeIn.getD 0))
    (l.filter (fun e => e.timeIn.isSome))

/-- The inner loop over adjacent pairs of one employee's sorted entries:
skip pairs lacking a clock-out or clock-in, and emit a gap only when it
exceeds ten minutes. -/
def gapsOfSorted (fileNumber : String) (sorted : List TimecardEntry) : List TimecardGap :=
  (sorted.zip sorted.tail).filterMap fun p =>
    match p.1.timeOut, p.2.timeIn with
    | some o, some tin =>
      let gapMinutes := differenceInMinutes tin o
      if gapMinutes > 10 then
        some ⟨p.1.payrollName, fileNumber, o, tin, gapMinutes⟩
      else none
    | _, _ => none

/-- `detectTimecardGaps`: filter to the target date, group by file
number in first-occurrence order, and scan each employee's sorted
entries for qualifying gaps. -/
def detectTimecardGaps (entries : List TimecardEntry) (targetDate : String) : List TimecardGap :=
  let dateEntries := entries.filter (fun e => e.payDate == targetDate)
  let keys := uniqKeys (dateEntries.map (fun e => e.fileNumber))
  keys.flatMap fun fn => gapsOfSorted fn (sortByTimeIn (entriesFor dateEntries fn))

/-! ### Report generator (`generateDiscrepancyReport`) -/

/-- The body of the per-employee loop of `generateDiscrepancyReport`
(extracted as a top-level function; `dateEntries` and `gaps` are the
values the source computes before the loop).  The two `|| null`
truthiness coercions on the break-sheet fields are modelled explicitly:
a declared duration of `0` is coerced to `null`. -/
def buildResult (score : String → String → Nat) (breakSheetEntries : List BreakSheetEntry)
    (gaps : List TimecardGap) (dateEntries : List TimecardEntry) (toleranceMinutes : Int)
    (fn : String) : EmployeeComparisonResult :=
  let entries := entriesFor dateEntries fn
  let employeeName := (entries.head?.map (fun e => e.payrollName)).getD ""
  let totalShiftHours := entries.foldl (fun s e => s + e.hours) 0
  let employeeGap := gaps.find? (fun g => g.fileNumber == fn)
  let breakSheetNames := breakSheetEntries.map (fun e => e.driverName)
  let nameMatch := matchEmployeeByName score employeeName breakSheetNames 80
  let breakEntry :=
    match nameMatch.matchName with
    | some m => breakSheetEntries.find? (fun e => e.driverName == m)
    | none => none
  let comparison := compareBreakRecords employeeGap breakEntry toleranceMinutes
  { employeeName := employeeName
    fileNumber := fn
    matchedBreakSheetName := nameMatch.matchName
    matchScore := nameMatch.score
    timecardGap := employeeGap
    totalShiftHours := totalShiftHours
    breakSheetDuration :=
      match breakEntry with
      | some b => match b.breakDuration with
                  | some d => if d = 0 then none else some d
                  | none => none
      | none => none
    breakSheetTimeRange :=
      match breakEntry with
      | some b => b.breakTimeRange
      | none => none
    status := comparison.status
    discrepancyMinutes := comparison.discrepancyMinutes
    message := comparison.message }

/-- The summary tally at the end of `generateDiscrepancyReport`. -/
def summarize (results : List EmployeeComparisonResult) : ReportSummary :=
  { totalEmployees := results.length
    matches_ := (results.filter (fun r => r.status == DiffStatus.match_)).length
    mismatches := (results.filter (fun r => r.status == DiffStatus.mismatch)).length
    missingBreakLog := (results.filter (fun r => r.status == DiffStatus.deletion)).length
    missingGap := (results.filter (fun r => r.status == DiffStatus.warning)).length
    noBreakRequired := (results.filter (fun r => r.status == DiffStatus.addition)).length }

/-- `generateDiscrepancyReport`, with the external fuzzball scorer as a
parameter. -/
def generateDiscrepancyReport (score : String → String → Nat)
    (timecardEntries : List TimecardEntry) (breakSheetEntries : List BreakSheetEntry)
    (targetDate : String) (toleranceMinutes : Int) : DiscrepancyReport :=
  let gaps := detectTimecardGaps timecardEntries targetDate
  let dateEntries := timecardEntries.filter (fun e => e.payDate == targetDate)
  let keys := uniqKeys (dateEntries.map (fun e => e.fileNumber))
  let results := keys.map (buildResult score breakSheetEntries gaps dateEntries toleranceMinutes)
  { targetDate := targetDate
    summary := summarize results
    results := results }

/-! ### Timecard CSV row handling (`parseTimecardCSV`)

The tabular parse itself is done by the external papaparse library; the
embedding starts from the header-keyed rows it delivers (a missing cell
is the empty string, which is what the source's falsiness tests detect).
The date-fns based `parseTimeString` and JS `parseFloat` are taken as
parameters `pts` and `pfl` (`pfl` returns `none` where `parseFloat`
returns `NaN`). -/

structure TimecardRow where
  payrollName : String
  fileNumber : String
  payDate : String
  timeIn : String
  timeOut : String
  hours : String
deriving DecidableEq, Repr

/-- A row is retained unless a critical field is blank or both punch
fields are blank (spec-side predicate, compared against the source loop
below). -/
def keepRow (r : TimecardRow) : Bool :=
  !(r.payrollName == "" || r.fileNumber == "" || r.payDate == "") &&
    !(r.timeIn == "" && r.timeOut == "")

def jsTrim (s : String) : String := String.mk (trimChars s.data)

/-- The entry built from a retained row: trimmed identity fields, parsed
punches (absent when unparseable), and `parseFloat(hours) || 0` (a `NaN`
— modelled `none` — coerces to 0; so does a parsed 0, with the same
value). -/
def entryOfRow (pts : String → Option Int) (pfl : String → Option Rat)
    (r : TimecardRow) : TimecardEntry :=
  { payrollName := jsTrim r.payrollName
    fileNumber := jsTrim r.fileNumber
    payDate := jsTrim r.payDate
    timeIn := pts r.timeIn
    timeOut := pts r.timeOut
    hours := (pfl r.hours).getD 0 }

/-- The row loop of `parseTimecardCSV`: skip (without error) rows with a
blank critical field, then rows with both punch fields blank, and build
an entry from every other row. -/
def parseTimecardRows (pts : String → Option Int) (pfl : String → Option Rat) :
    List TimecardRow → List TimecardEntry
  | [] => []
  | r :: rs =>
    if r.payrollName == "" || r.fileNumber == "" || r.payDate == "" then
      parseTimecardRows pts pfl rs
    else if r.timeIn == "" && r.timeOut == "" then
      parseTimecardRows pts pfl rs
    else
      entryOfRow pts pfl r :: parseTimecardRows pts pfl rs

/-- A time parser and a float parser that always fail, standing in for
`parseTimeString`/`parseFloat` on unparseable text in the C8 witness. -/
def ptsFail : String → Option Int := fun _ => none

def pflFail : String → Option Rat := fun _ => none


/-! ### Classifier theorems (claims C2, C3, C4) -/

/-- C2: with both a gap and a break entry present and the logged minutes
known (time-range actual minutes, falling back to the declared
duration), the status is `match` with discrepancy exactly 0 when the
absolute difference is within tolerance, and `mismatch` with the signed
difference `gap − logged` otherwise. -/
theorem compareBreakRecords_both_known (g : TimecardGap) (b : BreakSheetEntry)
    (toleranceMinutes m : Int) (h : loggedMinutesOf b = some m) :
    (|g.gapMinutes - m| ≤ toleranceMinutes →
      (compareBreakRecords (some g) (some b) toleranceMinutes).status = DiffStatus.match_ ∧
      (compareBreakRecords (some g) (some b) toleranceMinutes).discrepancyMinutes = some 0) ∧
    (¬ |g.gapMinutes - m| ≤ toleranceMinutes →
      (compareBreakRecords (some g) (some b) toleranceMinutes).status = DiffStatus.mismatch ∧
      (compareBreakRecords (some g) (some b) toleranceMinutes).discrepancyMinutes =
        some (g.gapMinutes - m)) := by
  simp only [compareBreakRecords]
  rw [h]
  constructor <;> intro hle <;> simp [hle]

/-- Witness for C2 at a concrete 28-minute gap against a 28-minute
actual-range duration under tolerance 5. -/
theorem compareBreakRecords_both_known_witness :
    (compareBreakRecords (some ⟨"A", "1", 45900000, 47580000, 28⟩)
        (some ⟨"A", some 15, some ⟨some 45900000, some 47580000, some 28⟩, false⟩) 5).status =
      DiffStatus.match_ ∧
    (compareBreakRecords (some ⟨"A", "1", 45900000, 47580000, 28⟩)
        (some ⟨"A", some 15, some ⟨some 45900000, some 47580000, some 28⟩, false⟩) 5).discrepancyMinutes =
      some 0 :=
  (compareBreakRecords_both_known ⟨"A", "1", 45900000, 47580000, 28⟩
    ⟨"A", some 15, some ⟨some 45900000, some 47580000, some 28⟩, false⟩ 5 28 (by decide)).1 (by decide)

/-- C3 (amended): with no gap and a break entry whose logged minutes are
known, the status is `warning`; the discrepancy is the negated logged
minutes when they are nonzero, and absent when they are zero (the
source's `loggedMinutes ? -loggedMinutes : null` treats 0 as falsy). -/
theorem compareBreakRecords_breakOnly_known (b : BreakSheetEntry) (toleranceMinutes m : Int)
    (h : loggedMinutesOf b = some m) :
    (compareBreakRecords none (some b) toleranceMinutes).status = DiffStatus.warning ∧
    (compareBreakRecords none (some b) toleranceMinutes).discrepancyMinutes =
      (if m = 0 then none else some (-m)) := by
  refine ⟨rfl, ?_⟩
  simp only [compareBreakRecords]
  rw [h]

/-- Witness for the amended C3 at a concrete 15-minute logged break. -/
theorem compareBreakRecords_breakOnly_known_witness :
    (compareBreakRecords none (some ⟨"B", some 15, none, false⟩) 5).status = DiffStatus.warning ∧
    (compareBreakRecords none (some ⟨"B", some 15, none, false⟩) 5).discrepancyMinutes =
      (if (15 : Int) = 0 then none else some (-(15 : Int))) :=
  compareBreakRecords_breakOnly_known ⟨"B", some 15, none, false⟩ 5 15 (by decide)

/-- Counterexample to C3 as stated: a break entry whose logged minutes
are known and equal to 0.  The claim demands discrepancy `-0 = 0`; the
source's truthiness test produces an absent discrepancy instead. -/
theorem compareBreakRecords_breakOnly_zero_cex :
    loggedMinutesOf ⟨"Pat", some 0, none, false⟩ = some 0 ∧
    (compareBreakRecords none (some ⟨"Pat", some 0, none, false⟩) 5).status = DiffStatus.warning ∧
    (compareBreakRecords none (some ⟨"Pat", some 0, none, false⟩) 5).discrepancyMinutes ≠
      some (-(0 : Int)) := by
  refine ⟨rfl, rfl, ?_⟩
  decide

/-- C4: with a gap present and no break entry, the status is `deletion`
and the discrepancy equals the gap's minute count exactly. -/
theorem compareBreakRecords_gapOnly (g : TimecardGap) (toleranceMinutes : Int) :
    (compareBreakRecords (some g) none toleranceMinutes).status = DiffStatus.deletion ∧
    (compareBreakRecords (some g) none toleranceMinutes).discrepancyMinutes =
      some g.gapMinutes :=
  ⟨rfl, rfl⟩

/-! ### Aggregation theorems (claims C1, C9) -/

/-- Each result carries exactly one of the five statuses, so the five
status filters partition any result list. -/
theorem filter_status_partition (l : List EmployeeComparisonResult) :
    (l.filter (fun r => r.status == DiffStatus.match_)).length +
    (l.filter (fun r => r.status == DiffStatus.mismatch)).length +
    (l.filter (fun r => r.status == DiffStatus.deletion)).length +
    (l.filter (fun r => r.status == DiffStatus.warning)).length +
    (l.filter (fun r => r.status == DiffStatus.addition)).length = l.length := by
  induction l with
  | nil => rfl
  | cons r rs ih =>
    simp only [List.filter_cons, List.length_cons]
    cases hs : r.status <;> simp [hs] <;> omega

/-- C1: the five summary counts sum to `totalEmployees`, which equals
the length of the result list. -/
theorem generateDiscrepancyReport_summary_total (score : String → String → Nat)
    (timecardEntries : List TimecardEntry) (breakSheetEntries : List BreakSheetEntry)
    (targetDate : String) (toleranceMinutes : Int) :
    (generateDiscrepancyReport score timecardEntries breakSheetEntries targetDate toleranceMinutes).summary.matches_ +
      (generateDiscrepancyReport score timecardEntries breakSheetEntries targetDate toleranceMinutes).summary.mismatches +
      (generateDiscrepancyReport score timecardEntries breakSheetEntries targetDate toleranceMinutes).summary.missingBreakLog +
      (generateDiscrepancyReport score timecardEntries breakSheetEntries targetDate toleranceMinutes).summary.missingGap +
      (generateDiscrepancyReport score timecardEntries breakSheetEntries targetDate toleranceMinutes).summary.noBreakRequired =
      (generateDiscrepancyReport score timecardEntries breakSheetEntries targetDate toleranceMinutes).summary.totalEmployees ∧
    (generateDiscrepancyReport score timecardEntries breakSheetEntries targetDate toleranceMinutes).summary.totalEmployees =
      (generateDiscrepancyReport score timecardEntries breakSheetEntries targetDate toleranceMinutes).results.length := by
  constructor
  · exact filter_status_partition _
  · rfl

/-- The classifier never returns the `addition` status. -/
theorem compareBreakRecords_ne_addition (gap : Option TimecardGap)
    (breakEntry : Option BreakSheetEntry) (toleranceMinutes : Int) :
    (compareBreakRecords gap breakEntry toleranceMinutes).status ≠ DiffStatus.addition := by
  rcases gap with _ | g <;> rcases breakEntry with _ | b <;> simp only [compareBreakRecords] <;> try simp
  rcases h : loggedMinutesOf b with _ | m <;> simp [h]
  split <;> simp

/-- C9: no report result ever carries the `addition` status, the
`noBreakRequired` count is 0 in every report, and an employee with
neither a detected gap nor a matched break entry is classified `match`
(and is therefore counted under `matches`). -/
theorem generateDiscrepancyReport_no_addition (score : String → String → Nat)
    (timecardEntries : List TimecardEntry) (breakSheetEntries : List BreakSheetEntry)
    (targetDate : String) (toleranceMinutes : Int) :
    (∀ r ∈ (generateDiscrepancyReport score timecardEntries breakSheetEntries targetDate toleranceMinutes).results,
      r.status ≠ DiffStatus.addition) ∧
    (generateDiscrepancyReport score timecardEntries breakSheetEntries targetDate toleranceMinutes).summary.noBreakRequired = 0 ∧
    (∀ r ∈ (generateDiscrepancyReport score timecardEntries breakSheetEntries targetDate toleranceMinutes).results,
      r.timecardGap = none → r.matchedBreakSheetName = none → r.status = DiffStatus.match_) := by
  have hmem : ∀ r ∈ (generateDiscrepancyReport score timecardEntries breakSheetEntries targetDate toleranceMinutes).results,
      ∃ fn, r = buildResult score breakSheetEntries
        (detectTimecardGaps timecardEntries targetDate)
        (timecardEntries.filter (fun e => e.payDate == targetDate)) toleranceMinutes fn := by
    intro r hr
    simp only [generateDiscrepancyReport] at hr
    obtain ⟨fn, _, rfl⟩ := List.mem_map.mp hr
    exact ⟨fn, rfl⟩
  have hne : ∀ r ∈ (generateDiscrepancyReport score timecardEntries breakSheetEntries targetDate toleranceMinutes).results,
      r.status ≠ DiffStatus.addition := by
    intro r hr
    obtain ⟨fn, rfl⟩ := hmem r hr
    exact compareBreakRecords_ne_addition _ _ _
  refine ⟨hne, ?_, ?_⟩
  · have : (generateDiscrepancyReport score timecardEntries breakSheetEntries targetDate toleranceMinutes).summary.noBreakRequired =
        ((generateDiscrepancyReport score timecardEntries breakSheetEntries targetDate toleranceMinutes).results.filter
          (fun r => r.status == DiffStatus.addition)).length := rfl
    rw [this, List.length_eq_zero, List.filter_eq_nil_iff]
    intro r hr
    simpa using hne r hr
  · intro r hr h1 h2
    obtain ⟨fn, rfl⟩ := hmem r hr
    simp only [buildResult] at h1 h2 ⊢
    rw [h1, h2]
    rfl

/-! ### Gap detector theorems (claim C7) -/

/-- C7: every emitted gap exceeds ten minutes (so a ten-minute gap is
never emitted), and conversely every adjacent pair of an employee's
sorted entries with both punches present and a difference above ten
minutes — in particular eleven minutes — is emitted. -/
theorem detectTimecardGaps_threshold (entries : List TimecardEntry) (targetDate : String) :
    (∀ g ∈ detectTimecardGaps entries targetDate, g.gapMinutes > 10) ∧
    (∀ fn cur nxt o tin,
      fn ∈ uniqKeys ((entries.filter (fun e => e.payDate == targetDate)).map (fun e => e.fileNumber)) →
      (cur, nxt) ∈ (sortByTimeIn (entriesFor (entries.filter (fun e => e.payDate == targetDate)) fn)).zip
        (sortByTimeIn (entriesFor (entries.filter (fun e => e.payDate == targetDate)) fn)).tail →
      cur.timeOut = some o → nxt.timeIn = some tin → differenceInMinutes tin o > 10 →
      (⟨cur.payrollName, fn, o, tin, differenceInMinutes tin o⟩ : TimecardGap) ∈
        detectTimecardGaps entries targetDate) := by
  constructor
  · intro g hg
    simp only [detectTimecardGaps] at hg
    rw [List.mem_flatMap] at hg
    obtain ⟨fn, _, hg⟩ := hg
    simp only [gapsOfSorted] at hg
    rw [List.mem_filterMap] at hg
    obtain ⟨p, _, hp⟩ := hg
    rcases h1 : p.1.timeOut with _ | o <;> rcases h2 : p.2.timeIn with _ | tin <;>
      rw [h1, h2] at hp <;> simp at hp
    obtain ⟨hgt, rfl⟩ := hp
    exact hgt
  · intro fn cur nxt o tin hfn hadj ho hti hgt
    simp only [detectTimecardGaps]
    rw [List.mem_flatMap]
    refine ⟨fn, hfn, ?_⟩
    simp only [gapsOfSorted]
    rw [List.mem_filterMap]
    refine ⟨(cur, nxt), hadj, ?_⟩
    rw [show (cur, nxt).1 = cur from rfl, show (cur, nxt).2 = nxt from rfl, ho, hti]
    simp [hgt]

/-- Witness for C7: two punch pairs eleven minutes apart produce an
emitted gap. -/
theorem detectTimecardGaps_threshold_witness :
    (⟨"A", "1", 3600000, 4260000, 11⟩ : TimecardGap) ∈
      detectTimecardGaps
        [⟨"A", "1", "d", some 0, some 3600000, 4⟩, ⟨"A", "1", "d", some 4260000, some 7200000, 4⟩]
        "d" := by
  have h := (detectTimecardGaps_threshold
      [⟨"A", "1", "d", some 0, some 3600000, 4⟩, ⟨"A", "1", "d", some 4260000, some 7200000, 4⟩]
      "d").2 "1" ⟨"A", "1", "d", some 0, some 3600000, 4⟩ ⟨"A", "1", "d", some 4260000, some 7200000, 4⟩
      3600000 4260000 (by decide) (by decide) rfl rfl (by decide)
  have hd : differenceInMinutes 4260000 3600000 = 11 := by decide
  rw [hd] at h
  exact h

/-! ### Timecard ingestion theorems (claim C8) -/

/-- C8: the row loop keeps exactly the rows `keepRow` admits (those with
no blank critical field and at least one punch field non-blank) and maps
each through `entryOfRow`; for a retained row a non-numeric hours cell
yields 0 and an unparseable punch cell yields an absent punch, the row
itself being kept.  The loop is total, so no error is raised. -/
theorem parseTimecardRows_spec (pts : String → Option Int) (pfl : String → Option Rat)
    (rows : List TimecardRow) :
    parseTimecardRows pts pfl rows = (rows.filter keepRow).map (entryOfRow pts pfl) ∧
    (∀ r : TimecardRow, keepRow r = true →
      (pfl r.hours = none → (entryOfRow pts pfl r).hours = 0) ∧
      (pts r.timeIn = none → (entryOfRow pts pfl r).timeIn = none) ∧
      (pts r.timeOut = none → (entryOfRow pts pfl r).timeOut = none)) := by
  constructor
  · induction rows with
    | nil => rfl
    | cons r rs ih =>
      simp only [parseTimecardRows, List.filter_cons]
      by_cases h1 : (r.payrollName == "" || r.fileNumber == "" || r.payDate == "") = true
      · have hk : keepRow r = false := by
          simp only [keepRow, h1]
          rfl
        rw [if_pos h1, hk]
        simpa using ih
      · rw [if_neg h1]
        by_cases h2 : (r.timeIn == "" && r.timeOut == "") = true
        · have hk : keepRow r = false := by
            simp [keepRow, h2]
          rw [if_pos h2, hk]
          simpa using ih
        · have hk : keepRow r = true := by
            simp only [Bool.not_eq_true] at h1 h2
            simp [keepRow, h1, h2]
          rw [if_neg h2, hk]
          simp [ih]
  · intro r _
    refine ⟨?_, ?_, ?_⟩ <;> intro h <;> simp [entryOfRow, h]

/-- Witness for C8: a retained row whose hours cell and punch cells are
all unparseable still yields an entry, with hours 0. -/
theorem parseTimecardRows_spec_witness :
    (pflFail "8q" = none → (entryOfRow ptsFail pflFail ⟨"A", "1", "d", "xx", "", "8q"⟩).hours = 0) ∧
    (ptsFail "xx" = none → (entryOfRow ptsFail pflFail ⟨"A", "1", "d", "xx", "", "8q"⟩).timeIn = none) ∧
    (ptsFail "" = none → (entryOfRow ptsFail pflFail ⟨"A", "1", "d", "xx", "", "8q"⟩).timeOut = none) :=
  (parseTimecardRows_spec ptsFail pflFail []).2 ⟨"A", "1", "d", "xx", "", "8q"⟩ (by decide)

/-! ### Matcher theorems (claim C5) -/

/-- Invariant of the matcher's loop: the final best score is the maximum
of the incoming best score and all entry scores; if no entry beats the
incoming score the accumulator survives unchanged; and if some entry
does, the loop returns the first entry attaining the maximum, every
earlier entry scoring strictly below it. -/
theorem matchLoop_spec (sc : String → Nat) :
    ∀ (ns : List String) (acc : Option String × Nat),
      (matchLoop sc ns acc).2 = max acc.2 (maxScoreList sc ns) ∧
      (maxScoreList sc ns ≤ acc.2 → matchLoop sc ns acc = acc) ∧
      (acc.2 < maxScoreList sc ns →
        ∃ l₁ m l₂, ns = l₁ ++ m :: l₂ ∧ sc m = maxScoreList sc ns ∧
          (∀ x ∈ l₁, sc x < sc m) ∧ matchLoop sc ns acc = (some m, sc m)) := by
  intro ns
  induction ns with
  | nil =>
    intro acc
    refine ⟨by simp [matchLoop, maxScoreList], fun _ => rfl, fun h => absurd h (by simp [maxScoreList])⟩
  | cons n rest ih =>
    intro acc
    have hml : maxScoreList sc (n :: rest) = max (sc n) (maxScoreList sc rest) := rfl
    by_cases hup : sc n > acc.2
    · have hstep : matchLoop sc (n :: rest) acc = matchLoop sc rest (some n, sc n) := by
        simp [matchLoop, hup]
      obtain ⟨iha, ihb, ihc⟩ := ih (some n, sc n)
      refine ⟨?_, ?_, ?_⟩
      · rw [hstep, iha, hml]
        exact (max_eq_right (le_trans (le_of_lt hup) (le_max_left _ _))).symm
      · intro hle
        rw [hml] at hle
        exact absurd (le_trans (le_max_left _ _) hle) (Nat.not_le.mpr hup)
      · intro _
        by_cases hr : maxScoreList sc rest ≤ sc n
        · refine ⟨[], n, rest, rfl, ?_, by simp, ?_⟩
          · rw [hml]
            exact (max_eq_left hr).symm
          · rw [hstep, ihb hr]
        · push_neg at hr
          obtain ⟨l₁, m, l₂, hsplit, hsc, hlt, hres⟩ := ihc (by simpa using hr)
          refine ⟨n :: l₁, m, l₂, by simp [hsplit], ?_, ?_, ?_⟩
          · rw [hml, hsc]
            exact (max_eq_right (le_of_lt hr)).symm
          · intro x hx
            rcases List.mem_cons.mp hx with rfl | hx
            · rw [hsc]
              exact hr
            · exact hlt x hx
          · rw [hstep, hres]
    · push_neg at hup
      have hstep : matchLoop sc (n :: rest) acc = matchLoop sc rest acc := by
        simp [matchLoop, Nat.not_lt.mpr hup]
      obtain ⟨iha, ihb, ihc⟩ := ih acc
      refine ⟨?_, ?_, ?_⟩
      · rw [hstep, iha, hml, ← max_assoc, max_eq_left hup]
      · intro hle
        rw [hml] at hle
        rw [hstep]
        exact ihb (le_trans (le_max_right _ _) hle)
      · intro hgt
        rw [hml] at hgt
        have hgt' : acc.2 < maxScoreList sc rest := by
          rcases lt_max_iff.mp hgt with h | h
          · exact absurd (lt_of_lt_of_le h hup) (lt_irrefl _)
          · exact h
        obtain ⟨l₁, m, l₂, hsplit, hsc, hlt, hres⟩ := ihc hgt'
        refine ⟨n :: l₁, m, l₂, by simp [hsplit], ?_, ?_, ?_⟩
        · rw [hml, hsc]
          exact (max_eq_right (le_of_lt (lt_of_le_of_lt hup hgt'))).symm
        · intro x hx
          rcases List.mem_cons.mp hx with rfl | hx
          · rw [hsc]
            exact lt_of_le_of_lt hup hgt'
          · exact hlt x hx
        · rw [hstep, hres]

/-- C5 (amended): the returned score is always the maximum entry score
over the pool (0 for an empty pool); when that maximum reaches the
threshold AND is strictly positive, the matcher returns the original
(pre-normalized) first pool entry attaining the maximum together with
that score, every earlier pool entry scoring strictly below it; when the
maximum is below the threshold OR zero, the match is absent.  (As
originally stated — without the strict positivity proviso — the claim
fails; see the counterexample.) -/
theorem matchEmployeeByName_spec (score : String → String → Nat) (cand : String)
    (pool : List String) (threshold : Nat) :
    (matchEmployeeByName score cand pool threshold).score =
      maxScoreList (entryScore score cand) pool ∧
    (threshold ≤ maxScoreList (entryScore score cand) pool ∧
        0 < maxScoreList (entryScore score cand) pool →
      ∃ l₁ m l₂, pool = l₁ ++ m :: l₂ ∧
        matchEmployeeByName score cand pool threshold =
          ⟨some m, entryScore score cand m⟩ ∧
        entryScore score cand m = maxScoreList (entryScore score cand) pool ∧
        ∀ x ∈ l₁, entryScore score cand x < entryScore score cand m) ∧
    (maxScoreList (entryScore score cand) pool < threshold ∨
        maxScoreList (entryScore score cand) pool = 0 →
      (matchEmployeeByName score cand pool threshold).matchName = none) := by
  obtain ⟨ha, hb, hc⟩ := matchLoop_spec (entryScore score cand) pool (none, 0)
  have hsc : (matchLoop (entryScore score cand) pool (none, 0)).2 =
      maxScoreList (entryScore score cand) pool := by
    rw [ha]
    exact Nat.zero_max _
  have hdef : matchEmployeeByName score cand pool threshold =
      (if (matchLoop (entryScore score cand) pool (none, 0)).2 ≥ threshold then
        ⟨(matchLoop (entryScore score cand) pool (none, 0)).1,
         (matchLoop (entryScore score cand) pool (none, 0)).2⟩
      else ⟨none, (matchLoop (entryScore score cand) pool (none, 0)).2⟩ : NameMatchResult) := rfl
  refine ⟨?_, ?_, ?_⟩
  · rw [hdef]
    split <;> exact hsc
  · rintro ⟨hth, hpos⟩
    obtain ⟨l₁, m, l₂, hsplit, hm, hlt, hres⟩ := hc hpos
    refine ⟨l₁, m, l₂, hsplit, ?_, hm, hlt⟩
    rw [hdef, hres]
    have hge : threshold ≤ entryScore score cand m := by
      rw [hm]
      exact hth
    simp [hge]
  · intro h
    rcases h with h | h
    · rw [hdef]
      have : ¬ (matchLoop (entryScore score cand) pool (none, 0)).2 ≥ threshold := by
        rw [hsc]
        exact Nat.not_le.mpr h
      rw [if_neg this]
    · have h0 : maxScoreList (entryScore score cand) pool ≤ 0 := le_of_eq h
      have := hb h0
      rw [hdef, this]
      split <;> rfl

/-- Counterexample to C5 as stated: candidate "abc" against the pool
["xyz"] with threshold 0.  The unique pool entry attains the maximum
score, which is 0 ≥ threshold, so the claim demands it be returned; the
loop's strict comparison against an initial best of 0 never fires, so
the source returns no match. -/
theorem matchEmployeeByName_zero_threshold_cex :
    matchEmployeeByName tokenSortRatio "abc" ["xyz"] 0 = ⟨none, 0⟩ ∧
    entryScore tokenSortRatio "abc" "xyz" = 0 := by
  refine ⟨by decide, by decide⟩

/-- Witness for the amended C5: "Geovanny Acosta" matched against a pool
whose second entry normalizes identically, with threshold 80. -/
theorem matchEmployeeByName_spec_witness :
    ∃ l₁ m l₂, ["zz", "Acosta, Geovanny"] = l₁ ++ m :: l₂ ∧
      matchEmployeeByName tokenSortRatio "Geovanny Acosta" ["zz", "Acosta, Geovanny"] 80 =
        ⟨some m, entryScore tokenSortRatio "Geovanny Acosta" m⟩ ∧
      entryScore tokenSortRatio "Geovanny Acosta" m =
        maxScoreList (entryScore tokenSortRatio "Geovanny Acosta") ["zz", "Acosta, Geovanny"] ∧
      ∀ x ∈ l₁, entryScore tokenSortRatio "Geovanny Acosta" x <
        entryScore tokenSortRatio "Geovanny Acosta" m :=
  (matchEmployeeByName_spec tokenSortRatio "Geovanny Acosta" ["zz", "Acosta, Geovanny"] 80).2.1
    (by decide)

/-! ### Normalizer theorems (claim C6)

The normalizer is idempotent precisely on inputs none of whose tokens is
erased entirely by the punctuation strip: an all-punctuation token
becomes the empty token, which sorts first and produces a leading space
that a second normalization removes.  The development below proves the
restricted idempotence and exhibits the counterexample. -/

theorem word_not_space {c : Char} (h : isWordChar c = true) : jsIsSpace c = false := by
  cases hjs : jsIsSpace c
  · rfl
  · simp only [jsIsSpace, Bool.or_eq_true, beq_iff_eq] at hjs
    rcases hjs with ((rfl | rfl) | rfl) | rfl <;> exact absurd h (by decide)

theorem word_ne_quote {c : Char} (h : isWordChar c = true) : c ≠ '"' := by
  rintro rfl
  exact absurd h (by decide)

theorem word_ne_comma {c : Char} (h : isWordChar c = true) : c ≠ ',' := by
  rintro rfl
  exact absurd h (by decide)

theorem jsToLower_cases (c : Char) :
    jsToLower c = c ∨ jsToLower c ∈
      ['a','b','c','d','e','f','g','h','i','j','k','l','m',
       'n','o','p','q','r','s','t','u','v','w','x','y','z'] := by
  unfold jsToLower
  split
  all_goals first
  | (left; rfl)
  | (right; decide)

theorem jsToLower_fixed_of_lower {d : Char}
    (hd : d ∈ ['a','b','c','d','e','f','g','h','i','j','k','l','m',
               'n','o','p','q','r','s','t','u','v','w','x','y','z']) :
    jsToLower d = d := by
  fin_cases hd <;> decide

theorem jsToLower_idem (c : Char) : jsToLower (jsToLower c) = jsToLower c := by
  rcases jsToLower_cases c with h | h
  · rw [h, h]
  · exact jsToLower_fixed_of_lower h

/-- Every character surviving `cleanToken` is a word character fixed by
lowercasing. -/
theorem cleanToken_chars {t : List Char} {c : Char} (h : c ∈ cleanToken t) :
    isWordChar c = true ∧ jsToLower c = c := by
  unfold cleanToken at h
  refine ⟨List.of_mem_filter h, ?_⟩
  obtain ⟨d, _, rfl⟩ := List.mem_map.mp (List.mem_of_mem_filter h)
  exact jsToLower_idem d

theorem map_eq_self_of_fixed {α : Type} {f : α → α} {l : List α}
    (h : ∀ a ∈ l, f a = a) : l.map f = l := by
  conv_rhs => rw [← List.map_id l]
  exact List.map_congr_left h

/-- `cleanToken` is the identity on tokens of lowercased word characters;
with `cleanToken_chars` this makes it idempotent. -/
theorem cleanToken_fixed {t : List Char}
    (h : ∀ c ∈ t, isWordChar c = true ∧ jsToLower c = c) : cleanToken t = t := by
  unfold cleanToken
  rw [map_eq_self_of_fixed (fun c hc => (h c hc).2)]
  exact List.filter_eq_self.mpr (fun c hc => (h c hc).1)

theorem mem_insertBy {α : Type} {le : α → α → Bool} {x a : α} {l : List α} :
    a ∈ insertBy le x l ↔ a = x ∨ a ∈ l := by
  induction l with
  | nil => simp [insertBy]
  | cons y ys ih =>
    by_cases h : le x y = true
    · simp [insertBy, h, List.mem_cons]
    · simp [insertBy, h, List.mem_cons, ih]
      tauto

theorem mem_sortBy {α : Type} {le : α → α → Bool} {a : α} {l : List α} :
    a ∈ sortBy le l ↔ a ∈ l := by
  induction l with
  | nil => simp [sortBy]
  | cons x xs ih => simp [sortBy, mem_insertBy, ih]

theorem chain'_insertBy {α : Type} {le : α → α → Bool}
    (htot : ∀ a b, le a b = true ∨ le b a = true) (x : α) :
    ∀ {l : List α}, List.Chain' (fun a b => le a b = true) l →
    List.Chain' (fun a b => le a b = true) (insertBy le x l) := by
  intro l
  induction l with
  | nil => intro _; simp [insertBy]
  | cons y ys ih =>
    intro h
    by_cases hxy : le x y = true
    · rw [show insertBy le x (y :: ys) = x :: y :: ys from by simp [insertBy, hxy]]
      exact List.chain'_cons.mpr ⟨hxy, h⟩
    · have hyx : le y x = true := (htot x y).resolve_left hxy
      rw [show insertBy le x (y :: ys) = y :: insertBy le x ys from by simp [insertBy, hxy]]
      rw [List.chain'_cons']
      refine ⟨?_, ih h.tail⟩
      intro b hb
      cases ys with
      | nil =>
        simp [insertBy] at hb
        rw [← hb]
        exact hyx
      | cons u us =>
        by_cases hxu : le x u = true
        · rw [show insertBy le x (u :: us) = x :: u :: us from by simp [insertBy, hxu]] at hb
          simp at hb
          rw [← hb]
          exact hyx
        · rw [show insertBy le x (u :: us) = u :: insertBy le x us from by simp [insertBy, hxu]] at hb
          simp at hb
          rw [← hb]
          exact (List.chain'_cons.mp h).1

theorem sortBy_chain' {α : Type} {le : α → α → Bool}
    (htot : ∀ a b, le a b = true ∨ le b a = true) (l : List α) :
    List.Chain' (fun a b => le a b = true) (sortBy le l) := by
  induction l with
  | nil => simp [sortBy]
  | cons x xs ih => exact chain'_insertBy htot x ih

theorem sortBy_eq_self {α : Type} {le : α → α → Bool} :
    ∀ {l : List α}, List.Chain' (fun a b => le a b = true) l → sortBy le l = l := by
  intro l
  induction l with
  | nil => intro _; rfl
  | cons x xs ih =>
    intro h
    rw [show sortBy le (x :: xs) = insertBy le x (sortBy le xs) from rfl, ih h.tail]
    cases xs with
    | nil => rfl
    | cons y ys =>
      have hxy : le x y = true := (List.chain'_cons.mp h).1
      simp [insertBy, hxy]

theorem charListLe_total : ∀ a b : List Char, charListLe a b = true ∨ charListLe b a = true := by
  intro a
  induction a with
  | nil => intro b; left; simp [charListLe]
  | cons x xs ih =>
    intro b
    cases b with
    | nil => right; simp [charListLe]
    | cons y ys =>
      by_cases h1 : x < y
      · left; simp [charListLe, h1]
      · by_cases h2 : y < x
        · right; simp [charListLe, h2]
        · rcases ih ys with h | h
          · left; simp [charListLe, h1, h2, h]
          · right; simp [charListLe, h1, h2, h]

theorem charListLe_antisymm : ∀ {a b : List Char},
    charListLe a b = true → charListLe b a = true → a = b := by
  intro a
  induction a with
  | nil =>
    intro b _ h2
    cases b with
    | nil => rfl
    | cons y ys => simp [charListLe] at h2
  | cons x xs ih =>
    intro b h1 h2
    cases b with
    | nil => simp [charListLe] at h1
    | cons y ys =>
      by_cases hxy : x < y
      · have hnyx : ¬ y < x := lt_asymm hxy
        simp [charListLe, hxy, hnyx] at h2
      · by_cases hyx : y < x
        · simp [charListLe, hxy, hyx] at h1
        · have hx : x = y := le_antisymm (le_of_not_lt hyx) (le_of_not_lt hxy)
          simp only [charListLe, if_neg hxy, if_neg hyx] at h1
          simp only [charListLe, if_neg hyx, if_neg hxy] at h2
          rw [hx, ih h1 h2]

theorem charListLe_trans : ∀ {a b c : List Char},
    charListLe a b = true → charListLe b c = true → charListLe a c = true := by
  intro a
  induction a with
  | nil => intro b c _ _; simp [charListLe]
  | cons x xs ih =>
    intro b c h1 h2
    cases b with
    | nil => simp [charListLe] at h1
    | cons y ys =>
      cases c with
      | nil => simp [charListLe] at h2
      | cons z zs =>
        by_cases hxy : x < y
        · by_cases hyz : y < z
          · simp [charListLe, lt_trans hxy hyz]
          · by_cases hzy : z < y
            · simp [charListLe, hyz, hzy] at h2
            · have hyz' : y = z := le_antisymm (le_of_not_lt hzy) (le_of_not_lt hyz)
              have hxz : x < z := by rw [← hyz']; exact hxy
              simp [charListLe, hxz]
        · by_cases hyx : y < x
          · simp [charListLe, hxy, hyx] at h1
          · have hxy' : x = y := le_antisymm (le_of_not_lt hyx) (le_of_not_lt hxy)
            simp only [charListLe, if_neg hxy, if_neg hyx] at h1
            by_cases hyz : y < z
            · have hxz : x < z := by rw [hxy']; exact hyz
              simp [charListLe, hxz]
            · by_cases hzy : z < y
              · simp [charListLe, hyz, hzy] at h2
              · simp only [charListLe, if_neg hyz, if_neg hzy] at h2
                have hxz : ¬ x < z := by rw [hxy']; exact hyz
                have hzx : ¬ z < x := by rw [hxy']; exact hzy
                simp only [charListLe, if_neg hxz, if_neg hzx]
                exact ih h1 h2

theorem insertBy_perm {α : Type} (le : α → α → Bool) (x : α) :
    ∀ (l : List α), (insertBy le x l).Perm (x :: l) := by
  intro l
  induction l with
  | nil => exact List.Perm.refl _
  | cons y ys ih =>
    by_cases h : le x y = true
    · rw [show insertBy le x (y :: ys) = x :: y :: ys from by simp [insertBy, h]]
    · rw [show insertBy le x (y :: ys) = y :: insertBy le x ys from by simp [insertBy, h]]
      exact (ih.cons y).trans (List.Perm.swap x y ys)

theorem sortBy_perm {α : Type} (le : α → α → Bool) :
    ∀ (l : List α), (sortBy le l).Perm l := by
  intro l
  induction l with
  | nil => exact List.Perm.refl _
  | cons x xs ih => exact (insertBy_perm le x (sortBy le xs)).trans (ih.cons x)

/-- Sorting under the total, antisymmetric, transitive order `charListLe`
sends permutation-equal token lists to the same list (the sorted
permutation of a multiset is unique). -/
theorem sortBy_perm_eq {l₁ l₂ : List (List Char)} (h : l₁.Perm l₂) :
    sortBy charListLe l₁ = sortBy charListLe l₂ := by
  have hp : (sortBy charListLe l₁).Perm (sortBy charListLe l₂) :=
    ((sortBy_perm _ l₁).trans h).trans (sortBy_perm _ l₂).symm
  have ht : IsTrans (List Char) (fun a b => charListLe a b = true) :=
    ⟨fun _ _ _ hab hbc => charListLe_trans hab hbc⟩
  have ha : IsAntisymm (List Char) (fun a b => charListLe a b = true) :=
    ⟨fun _ _ hab hba => charListLe_antisymm hab hba⟩
  have hs₁ : (sortBy charListLe l₁).Pairwise (fun a b => charListLe a b = true) :=
    (@List.chain'_iff_pairwise _ _ ht _).mp (sortBy_chain' charListLe_total l₁)
  have hs₂ : (sortBy charListLe l₂).Pairwise (fun a b => charListLe a b = true) :=
    (@List.chain'_iff_pairwise _ _ ht _).mp (sortBy_chain' charListLe_total l₂)
  exact @List.eq_of_perm_of_sorted _ _ ha _ _ hp hs₁ hs₂

/-- The empty-name guard is immaterial: on every input the normalizer
returns the space-join of its sorted cleaned tokens. -/
theorem normalizeEmployeeName_eq_sorted (name : String) :
    normalizeEmployeeName name =
      String.mk (joinSpace (sortBy charListLe (normTokens name))) := by
  by_cases h0 : name = ""
  · subst h0
    rfl
  · rw [normalizeEmployeeName, if_neg h0]

theorem joinSpace_cons_cons (t u : List Char) (ts : List (List Char)) :
    joinSpace (t :: u :: ts) = t ++ ' ' :: joinSpace (u :: ts) := rfl

theorem mem_joinSpace {c : Char} :
    ∀ {L : List (List Char)}, c ∈ joinSpace L → c = ' ' ∨ ∃ t ∈ L, c ∈ t := by
  intro L
  induction L with
  | nil => intro h; simp [joinSpace] at h
  | cons t ts ih =>
    intro h
    cases ts with
    | nil =>
      right
      exact ⟨t, by simp, by simpa [joinSpace] using h⟩
    | cons u us =>
      rw [joinSpace_cons_cons] at h
      rcases List.mem_append.mp h with h | h
      · right; exact ⟨t, by simp, h⟩
      · rcases List.mem_cons.mp h with rfl | h
        · left; rfl
        · rcases ih h with h | ⟨v, hv, hc⟩
          · left; exact h
          · right; exact ⟨v, by simp [hv], hc⟩

theorem joinSpace_ne_nil {t : List Char} {ts : List (List Char)} (ht : t ≠ []) :
    joinSpace (t :: ts) ≠ [] := by
  cases ts with
  | nil => simpa [joinSpace] using ht
  | cons u us =>
    rw [joinSpace_cons_cons]
    intro h
    exact ht (List.append_eq_nil.mp h).1

theorem joinSpace_append_singleton :
    ∀ (M : List (List Char)) (x : List Char), M ≠ [] →
      joinSpace (M ++ [x]) = joinSpace M ++ ' ' :: x := by
  intro M
  induction M with
  | nil => intro x h; exact absurd rfl h
  | cons t ts ih =>
    intro x _
    cases ts with
    | nil => rfl
    | cons u us =>
      rw [show (t :: u :: us) ++ [x] = t :: ((u :: us) ++ [x]) from rfl]
      rw [show (u :: us) ++ [x] = u :: (us ++ [x]) from rfl, joinSpace_cons_cons]
      rw [show u :: (us ++ [x]) = (u :: us) ++ [x] from rfl, ih x (by simp)]
      rw [joinSpace_cons_cons]
      simp

theorem reverse_joinSpace : ∀ (L : List (List Char)),
    (joinSpace L).reverse = joinSpace ((L.map List.reverse).reverse) := by
  intro L
  induction L with
  | nil => rfl
  | cons t ts ih =>
    cases ts with
    | nil => simp [joinSpace]
    | cons u us =>
      rw [joinSpace_cons_cons, List.reverse_append, List.reverse_cons, ih]
      rw [show ((t :: u :: us).map List.reverse).reverse =
            ((u :: us).map List.reverse).reverse ++ [t.reverse] from by simp]
      rw [joinSpace_append_singleton _ _ (by simp)]
      simp

theorem dropWhile_eq_self_head {p : Char → Bool} {cs : List Char}
    (h : ∀ c, cs.head? = some c → p c = false) : cs.dropWhile p = cs := by
  cases cs with
  | nil => rfl
  | cons c cs' => simp [List.dropWhile_cons, h c rfl]

theorem joinSpace_head_word {L : List (List Char)}
    (HG : ∀ t ∈ L, t ≠ [] ∧ ∀ c ∈ t, isWordChar c = true) :
    ∀ c, (joinSpace L).head? = some c → jsIsSpace c = false := by
  intro c hc
  cases L with
  | nil => simp [joinSpace] at hc
  | cons t ts =>
    obtain ⟨hne, hw⟩ := HG t (by simp)
    cases t with
    | nil => exact absurd rfl hne
    | cons c0 t' =>
      have hhead : (joinSpace ((c0 :: t') :: ts)).head? = some c0 := by
        cases ts with
        | nil => rfl
        | cons u us => rw [joinSpace_cons_cons]; rfl
      rw [hhead] at hc
      have hceq : c0 = c := by injection hc
      rw [← hceq]
      exact word_not_space (hw c0 (by simp))

theorem trimChars_canonical {L : List (List Char)}
    (HG : ∀ t ∈ L, t ≠ [] ∧ ∀ c ∈ t, isWordChar c = true) :
    trimChars (joinSpace L) = joinSpace L := by
  have HGr : ∀ t ∈ (L.map List.reverse).reverse, t ≠ [] ∧ ∀ c ∈ t, isWordChar c = true := by
    intro t ht
    rw [List.mem_reverse, List.mem_map] at ht
    obtain ⟨u, hu, rfl⟩ := ht
    obtain ⟨hne, hw⟩ := HG u hu
    exact ⟨by simpa using hne, fun c hc => hw c (List.mem_reverse.mp hc)⟩
  unfold trimChars
  rw [dropWhile_eq_self_head (joinSpace_head_word HG), reverse_joinSpace,
    dropWhile_eq_self_head (joinSpace_head_word HGr), ← reverse_joinSpace, List.reverse_reverse]

theorem splitWsAux_token : ∀ (t : List Char), (∀ c ∈ t, jsIsSpace c = false) →
    ∀ (acc cs : List Char), splitWsAux acc (t ++ cs) = splitWsAux (t.reverse ++ acc) cs := by
  intro t
  induction t with
  | nil => intro _ acc cs; simp
  | cons c t' ih =>
    intro h acc cs
    have hc : jsIsSpace c = false := h c (by simp)
    rw [show (c :: t') ++ cs = c :: (t' ++ cs) from rfl]
    rw [show splitWsAux acc (c :: (t' ++ cs)) = splitWsAux (c :: acc) (t' ++ cs) from by
      simp [splitWsAux, hc]]
    rw [ih (fun d hd => h d (by simp [hd])) (c :: acc) cs]
    congr 1
    simp

theorem splitWs_joinSpace : ∀ (L : List (List Char)),
    (∀ t ∈ L, t ≠ [] ∧ ∀ c ∈ t, jsIsSpace c = false) → splitWs (joinSpace L) = L := by
  intro L
  induction L with
  | nil => intro _; rfl
  | cons t ts ih =>
    intro H
    obtain ⟨hne, hns⟩ := H t (by simp)
    cases ts with
    | nil =>
      show splitWsAux [] (joinSpace [t]) = [t]
      rw [show joinSpace [t] = t ++ [] from by simp [joinSpace]]
      rw [splitWsAux_token t hns [] []]
      cases htr : t.reverse with
      | nil => exact absurd (by simpa using htr) hne
      | cons c cs =>
        simp [splitWsAux, ← htr, hne]
    | cons u us =>
      show splitWsAux [] (joinSpace (t :: u :: us)) = t :: u :: us
      rw [joinSpace_cons_cons, splitWsAux_token t hns [] (' ' :: joinSpace (u :: us))]
      cases htr : t.reverse with
      | nil => exact absurd (by simpa using htr) hne
      | cons c cs =>
        have hstep : splitWsAux (c :: cs) (' ' :: joinSpace (u :: us)) =
            (c :: cs).reverse :: splitWsAux [] (joinSpace (u :: us)) := by
          simp [splitWsAux, show jsIsSpace ' ' = true from rfl]
        rw [show (c :: cs) ++ ([] : List Char) = c :: cs from by simp, hstep, ← htr,
          List.reverse_reverse,
          show splitWsAux [] (joinSpace (u :: us)) = splitWs (joinSpace (u :: us)) from rfl,
          ih (fun v hv => H v (by simp [hv]))]

theorem splitComma_no_comma : ∀ {cs : List Char}, (∀ c ∈ cs, c ≠ ',') → splitComma cs = [cs] := by
  intro cs
  induction cs with
  | nil => intro _; rfl
  | cons c cs' ih =>
    intro h
    have hc : ¬ c = ',' := h c (by simp)
    simp [splitComma, hc, ih (fun d hd => h d (by simp [hd]))]

/-- The normalizer is the identity on its own canonical outputs: a
space-join of nonempty, lowercased, punctuation-free, sorted tokens. -/
theorem normalizeEmployeeName_canonical {L : List (List Char)}
    (HG : ∀ t ∈ L, t ≠ [] ∧ ∀ c ∈ t, isWordChar c = true ∧ jsToLower c = c)
    (HS : List.Chain' (fun a b => charListLe a b = true) L) :
    normalizeEmployeeName (String.mk (joinSpace L)) = String.mk (joinSpace L) := by
  cases L with
  | nil => rfl
  | cons t0 ts =>
    have HGw : ∀ t ∈ t0 :: ts, t ≠ [] ∧ ∀ c ∈ t, isWordChar c = true :=
      fun t ht => ⟨(HG t ht).1, fun c hc => ((HG t ht).2 c hc).1⟩
    have hne : joinSpace (t0 :: ts) ≠ [] := joinSpace_ne_nil (HGw t0 (by simp)).1
    have hmkne : String.mk (joinSpace (t0 :: ts)) ≠ "" := fun h => hne (congrArg String.data h)
    have hword : ∀ c ∈ joinSpace (t0 :: ts), isWordChar c = true ∨ c = ' ' := by
      intro c hc
      rcases mem_joinSpace hc with h | ⟨t, ht, hct⟩
      · right; exact h
      · left; exact (HGw t ht).2 c hct
    have hclean : cleanedOf (String.mk (joinSpace (t0 :: ts))) = joinSpace (t0 :: ts) := by
      unfold cleanedOf
      rw [show (String.mk (joinSpace (t0 :: ts))).data = joinSpace (t0 :: ts) from rfl]
      rw [trimChars_canonical HGw]
      refine List.filter_eq_self.mpr ?_
      intro c hc
      rcases hword c hc with h | rfl
      · simpa using word_ne_quote h
      · decide
    have hnocomma : ∀ c ∈ joinSpace (t0 :: ts), c ≠ ',' := by
      intro c hc
      rcases hword c hc with h | rfl
      · exact word_ne_comma h
      · decide
    have hraw : rawTokens (joinSpace (t0 :: ts)) = t0 :: ts := by
      unfold rawTokens
      rw [splitComma_no_comma hnocomma]
      rw [show (let parts := List.map trimChars [joinSpace (t0 :: ts)];
          if parts.length > 1 then parts.flatMap splitWs else splitWs (joinSpace (t0 :: ts))) =
          splitWs (joinSpace (t0 :: ts)) from rfl]
      exact splitWs_joinSpace _
        (fun t ht => ⟨(HGw t ht).1, fun c hc => word_not_space ((HGw t ht).2 c hc)⟩)
    have htok : normTokens (String.mk (joinSpace (t0 :: ts))) = t0 :: ts := by
      unfold normTokens
      rw [hclean, hraw]
      exact map_eq_self_of_fixed (fun t ht => cleanToken_fixed (fun c hc => (HG t ht).2 c hc))
    rw [normalizeEmployeeName, if_neg hmkne, htok, sortBy_eq_self HS]

/-- C6 (amended): the normalizer is idempotent on every name none of
whose tokens is erased entirely by the punctuation strip; and it is
comma/word-order invariant universally: any two names whose extracted
cleaned token lists agree up to order — which is exactly how names
differing only in comma placement and token order present themselves to
the normalizer — normalize identically, in particular
"Acosta, Geovanny" and "Geovanny Acosta".  (Unrestricted idempotence
fails; see the counterexample.) -/
theorem normalizeEmployeeName_idem (name n₁ n₂ : String)
    (h : ∀ t ∈ normTokens name, t ≠ [])
    (hperm : (normTokens n₁).Perm (normTokens n₂)) :
    normalizeEmployeeName (normalizeEmployeeName name) = normalizeEmployeeName name ∧
    normalizeEmployeeName n₁ = normalizeEmployeeName n₂ ∧
    normalizeEmployeeName "Acosta, Geovanny" = normalizeEmployeeName "Geovanny Acosta" := by
  refine ⟨?_, by
    rw [normalizeEmployeeName_eq_sorted n₁, normalizeEmployeeName_eq_sorted n₂,
      sortBy_perm_eq hperm], by decide⟩
  by_cases h0 : name = ""
  · rw [h0]
    decide
  · rw [show normalizeEmployeeName name =
        String.mk (joinSpace (sortBy charListLe (normTokens name))) from by
      rw [normalizeEmployeeName, if_neg h0]]
    apply normalizeEmployeeName_canonical
    · intro t ht
      rw [mem_sortBy] at ht
      refine ⟨h t ht, ?_⟩
      unfold normTokens at ht
      obtain ⟨u, _, rfl⟩ := List.mem_map.mp ht
      exact fun c hc => cleanToken_chars hc
    · exact sortBy_chain' charListLe_total _

/-- Witness for the amended C6 at "Acosta, Geovanny" and
"Geovanny Acosta": the tokens all survive cleaning and the cleaned
token lists are permutations of each other. -/
theorem normalizeEmployeeName_idem_witness :
    normalizeEmployeeName (normalizeEmployeeName "Acosta, Geovanny") =
      normalizeEmployeeName "Acosta, Geovanny" ∧
    normalizeEmployeeName "Acosta, Geovanny" = normalizeEmployeeName "Geovanny Acosta" ∧
    normalizeEmployeeName "Acosta, Geovanny" = normalizeEmployeeName "Geovanny Acosta" :=
  normalizeEmployeeName_idem "Acosta, Geovanny" "Acosta, Geovanny" "Geovanny Acosta"
    (by decide)
    (by
      rw [show normTokens "Acosta, Geovanny" = ["acosta".data, "geovanny".data] from rfl,
        show normTokens "Geovanny Acosta" = ["geovanny".data, "acosta".data] from rfl]
      exact List.Perm.swap "geovanny".data "acosta".data [])

/-- Counterexample to C6 as stated: "a - b" has the all-punctuation
token "-", which cleans to the empty token; the empty token sorts first
and the join gains a leading space (`normalize "a - b" = " a b"`), which
a second normalization then trims away (`= "a b"`). -/
theorem normalizeEmployeeName_not_idem :
    normalizeEmployeeName (normalizeEmployeeName "a - b") ≠ normalizeEmployeeName "a - b" := by
  decide

/-- Witness for C9: a one-employee timecard with a single punch pair and
an empty break sheet — no gap, no match — yields `noBreakRequired = 0`
and a `match` classification for that employee. -/
theorem generateDiscrepancyReport_no_addition_witness :
    (generateDiscrepancyReport tokenSortRatio [⟨"A", "1", "d", some 0, some 3600000, 4⟩] [] "d" 5).summary.noBreakRequired = 0 ∧
    (buildResult tokenSortRatio []
        (detectTimecardGaps [⟨"A", "1", "d", some 0, some 3600000, 4⟩] "d")
        (([⟨"A", "1", "d", some 0, some 3600000, 4⟩] : List TimecardEntry).filter
          (fun e => e.payDate == "d")) 5 "1").status = DiffStatus.match_ := by
  have h := generateDiscrepancyReport_no_addition tokenSortRatio
    [⟨"A", "1", "d", some 0, some 3600000, 4⟩] [] "d" 5
  refine ⟨h.2.1, h.2.2 _ ?_ (by decide) (by decide)⟩
  rw [show (generateDiscrepancyReport tokenSortRatio
      [⟨"A", "1", "d", some 0, some 3600000, 4⟩] [] "d" 5).results =
      [buildResult tokenSortRatio []
        (detectTimecardGaps [⟨"A", "1", "d", some 0, some 3600000, 4⟩] "d")
        (([⟨"A", "1", "d", some 0, some 3600000, 4⟩] : List TimecardEntry).filter
          (fun e => e.payDate == "d")) 5 "1"] from rfl]
  exact List.mem_singleton.mpr rfl
